import Mathlib

/-!
# Verification of an array-backed binary min-heap

Shallow embedding of `src/binary_heap.rs` (struct `BinaryHeap<T: Ord>`,
backed by `Vec<T>`, implementing the `MinHeap<T>` trait of `src/min_heap.rs`).

The heap state is the backing vector, modelled as a `List α` over a linear
order.  The two internal loops (sift-up in `push`, sift-down in `pop`) are
modelled as fuel-indexed recursive functions whose result distinguishes
normal completion (`LoopRes.ok`), an out-of-bounds vector index — which in
Rust would be an indexing panic — (`LoopRes.oob`), and fuel exhaustion
(`LoopRes.diverge`).  We prove that for the fuel supplied by `push`/`pop`
(and any larger fuel) the loops always complete normally, so the fueled
functions coincide with the Rust loops on every input.
-/

namespace RustBinaryHeap

/-- Result of running an embedded loop: normal completion, an out-of-bounds
vector index (a panic in Rust), or fuel exhaustion. -/
inductive LoopRes (β : Type _) where
  | ok (val : β)
  | oob
  | diverge
deriving DecidableEq

/-- `fn left_son(index: usize) -> usize { 2 * index + 1 }` -/
def left_son (index : Nat) : Nat := 2 * index + 1

/-- `fn right_son(index: usize) -> usize { 2 * index + 2 }` -/
def right_son (index : Nat) : Nat := 2 * index + 2

/-- `fn father(index: usize) -> Option<usize>`:
`if index == 0 { None } else { Some((index + 1) / 2 - 1) }` -/
def father (index : Nat) : Option Nat :=
  if index = 0 then none else some ((index + 1) / 2 - 1)

variable {α : Type _}

/-- The sift-up loop of `BinaryHeap::push` (binary_heap.rs lines 35-45):
```
loop {
    let f = match father(current) { Some(node) => node, None => break };
    if self.values[current] >= self.values[f] { break; }
    self.values.swap(current, f);
    current = f;
}
```
Both indexing operations are modelled fallibly; `swap` is expressed with the
two fetched values. -/
def siftUpLoop [LinearOrder α] : Nat → List α → Nat → LoopRes (List α)
  | 0, _, _ => .diverge
  | fuel + 1, values, current =>
    match father current with
    | none => .ok values
    | some f =>
      match values[current]?, values[f]? with
      | some vc, some vf =>
        if vf ≤ vc then .ok values
        else siftUpLoop fuel ((values.set current vf).set f vc) f
      | _, _ => .oob

/-- `BinaryHeap::push` (binary_heap.rs lines 31-46): append the value, then
sift it up from the last index.  The loop is given fuel equal to the new
vector length, which we prove sufficient. -/
def push [LinearOrder α] (values : List α) (val : α) : LoopRes (List α) :=
  let grown := values ++ [val]
  siftUpLoop grown.length grown (grown.length - 1)

/-- `BinaryHeap::top` (binary_heap.rs lines 48-50): `self.values.get(0)`. -/
def top (values : List α) : Option α := values[0]?

/-- The sift-down loop of `BinaryHeap::pop` (binary_heap.rs lines 68-90):
```
loop {
    let left_son = left_son(current_node);
    let right_son = right_son(current_node);
    if left_son > last { break; }
    let mut smallest = left_son;
    if right_son <= last && self.values[right_son] < self.values[left_son] {
        smallest = right_son;
    }
    if self.values[current_node] <= self.values[smallest] { break; }
    self.values.swap(current_node, smallest);
    current_node = smallest;
}
``` -/
def siftDownLoop [LinearOrder α] : Nat → List α → Nat → Nat → LoopRes (List α)
  | 0, _, _, _ => .diverge
  | fuel + 1, values, last, current_node =>
    if last < left_son current_node then .ok values
    else
      match
        (if last < right_son current_node then some (left_son current_node)
         else
           match values[right_son current_node]?, values[left_son current_node]? with
           | some vr, some vl =>
             some (if vr < vl then right_son current_node else left_son current_node)
           | _, _ => none) with
      | none => .oob
      | some smallest =>
        match values[current_node]?, values[smallest]? with
        | some vc, some vs =>
          if vc ≤ vs then .ok values
          else
            siftDownLoop fuel ((values.set current_node vs).set smallest vc)
              last smallest
        | _, _ => .oob

/-- `BinaryHeap::pop` (binary_heap.rs lines 52-93): empty heap returns
`None`; a one-element heap pops its only element; otherwise the root is
swapped with the last element, the vector is shrunk by one, and the new
root is sifted down with `last = len - 2`.  The sift-down loop is given
fuel equal to the shrunk vector length plus one, which we prove
sufficient. -/
def pop [LinearOrder α] (values : List α) : LoopRes (Option α × List α) :=
  if values.isEmpty then .ok (none, values)
  else if values.length = 1 then .ok (values.getLast?, values.dropLast)
  else
    let last := values.length - 1
    match values[0]?, values[last]? with
    | some v0, some vl =>
      let swapped := (values.set 0 vl).set last v0
      let popped := swapped.getLast?
      let shrunk := swapped.dropLast
      match siftDownLoop (shrunk.length + 1) shrunk (last - 1) 0 with
      | .ok final => .ok (popped, final)
      | .oob => .oob
      | .diverge => .diverge
    | _, _ => .oob

/-- `BinaryHeap::len` (binary_heap.rs lines 95-97): `self.values.len()`. -/
def len (values : List α) : Nat := values.length

/-- `BinaryHeap::is_empty` (binary_heap.rs lines 99-101):
`self.values.is_empty()`. -/
def is_empty (values : List α) : Bool := values.isEmpty

/-- `BinaryHeap::new` (binary_heap.rs lines 25-27): the empty heap. -/
def new : List α := []

/-- Extract the payload of a normally completed loop, with a default for
the failure cases (which we prove unreachable for `push` and `pop`). -/
def getOk (dflt : β) : LoopRes β → β
  | .ok v => v
  | .oob => dflt
  | .diverge => dflt

/-- Total version of `push`, defined from the embedded `push`; the proofs
show `push values val = LoopRes.ok (pushT values val)` for all inputs. -/
def pushT [LinearOrder α] (values : List α) (val : α) : List α :=
  getOk values (push values val)

/-- Total version of `pop`, defined from the embedded `pop`; the proofs
show `pop values = LoopRes.ok (popT values)` for all inputs. -/
def popT [LinearOrder α] (values : List α) : Option α × List α :=
  getOk (none, values) (pop values)

/-- The min-heap invariant of the backing vector: every element with a
father is at least the element at its father's index. -/
def IsHeap [LinearOrder α] (l : List α) : Prop :=
  ∀ i p a b, father i = some p → l[i]? = some a → l[p]? = some b → b ≤ a

/-- Boolean (hence evaluable) check of the heap invariant. -/
def isHeapB [LinearOrder α] (l : List α) : Bool :=
  (List.range l.length).all fun i =>
    match father i, l[i]?, l[(i + 1) / 2 - 1]? with
    | some _, some a, some b => decide (b ≤ a)
    | _, _, _ => true

/-- Intermediate invariant of the sift-up loop at index `c`: the heap
property holds for every father-child edge except possibly the one into
`c`, and moreover the father of `c` (if any) is at most every child of
`c`. -/
def UpInv [LinearOrder α] (l : List α) (c : Nat) : Prop :=
  (∀ i p a b, father i = some p → i ≠ c → l[i]? = some a → l[p]? = some b → b ≤ a) ∧
  (∀ p j a b, father c = some p → father j = some c → l[j]? = some a → l[p]? = some b →
    b ≤ a)

/-- Intermediate invariant of the sift-down loop at index `c`: the heap
property holds for every father-child edge except possibly those out of
`c`, and moreover the father of `c` (if any) is at most every child of
`c`. -/
def DownInv [LinearOrder α] (l : List α) (c : Nat) : Prop :=
  (∀ i p a b, father i = some p → p ≠ c → l[i]? = some a → l[p]? = some b → b ≤ a) ∧
  (∀ p j a b, father c = some p → father j = some c → l[j]? = some a → l[p]? = some b →
    b ≤ a)

/-- A client-visible operation on the heap. -/
inductive Op (α : Type _) where
  | push (x : α)
  | pop

/-- One client operation applied to a heap paired with a counter of the
pops that returned `Some`. -/
def stepOp [LinearOrder α] (acc : List α × Nat) (op : Op α) : List α × Nat :=
  match op with
  | .push x => (pushT acc.1 x, acc.2)
  | .pop =>
    match popT acc.1 with
    | (some _, l) => (l, acc.2 + 1)
    | (none, l) => (l, acc.2)

/-- Run a list of operations starting from the empty heap, returning the
final backing vector together with the number of pops that returned
`Some`. -/
def runOps [LinearOrder α] (ops : List (Op α)) : List α × Nat :=
  ops.foldl stepOp (new, 0)

/-- The number of push operations in a list of operations. -/
def countPush (ops : List (Op α)) : Nat :=
  (ops.filter fun op => match op with | .push _ => true | .pop => false).length

/-- Push every element of `xs`, in order, into the empty heap. -/
def pushAll [LinearOrder α] (xs : List α) : List α := xs.foldl pushT new

/-- Pop repeatedly (at most `fuel` times), collecting the returned values,
stopping at the first absent result. -/
def popList [LinearOrder α] : Nat → List α → List α
  | 0, _ => []
  | fuel + 1, l =>
    match popT l with
    | (some x, l') => x :: popList fuel l'
    | (none, _) => []

/-- Pop every element of the heap, collecting the values in pop order. -/
def popAll [LinearOrder α] (l : List α) : List α := popList l.length l

/-! ## Index arithmetic lemmas -/

theorem father_eq_some_iff {i p : Nat} : father i = some p ↔ i ≠ 0 ∧ p = (i + 1) / 2 - 1 := by
  unfold father
  split <;> simp_all [eq_comm]

theorem father_eq_none_iff {i : Nat} : father i = none ↔ i = 0 := by
  unfold father
  split <;> simp_all

theorem father_lt {i p : Nat} (h : father i = some p) : p < i := by
  obtain ⟨hi, rfl⟩ := father_eq_some_iff.mp h
  omega

theorem child_cases {j c : Nat} (h : father j = some c) :
    j = left_son c ∨ j = right_son c := by
  obtain ⟨hj, hc⟩ := father_eq_some_iff.mp h
  unfold left_son right_son
  omega

theorem father_left_son (c : Nat) : father (left_son c) = some c := by
  rw [father_eq_some_iff]
  unfold left_son
  omega

theorem father_right_son (c : Nat) : father (right_son c) = some c := by
  rw [father_eq_some_iff]
  unfold right_son
  omega

theorem child_gt {j c : Nat} (h : father j = some c) : c < j := father_lt h

/-! ## Swap lemmas on lists -/

theorem getElem?_some_lt {l : List α} {i : Nat} {a : α} (h : l[i]? = some a) :
    i < l.length :=
  (List.getElem?_eq_some_iff.mp h).1

theorem swap_getElem? {l : List α} {i j : Nat} {a b : α} (hi : l[i]? = some a)
    (hj : l[j]? = some b) (hne : i ≠ j) (k : Nat) :
    ((l.set i b).set j a)[k]? = if k = j then some a else if k = i then some b else l[k]? := by
  have hil : i < l.length := getElem?_some_lt hi
  have hjl : j < l.length := getElem?_some_lt hj
  by_cases hkj : k = j
  · subst hkj
    simp [List.getElem?_set_self, hjl]
  · rw [List.getElem?_set_ne (fun h => hkj h.symm)]
    by_cases hki : k = i
    · subst hki
      simp [List.getElem?_set_self, hil, hkj]
    · rw [List.getElem?_set_ne (fun h => hki h.symm)]
      simp [hkj, hki]

theorem cons_set_perm : ∀ (t : List α) (m : Nat) (a b : α), t[m]? = some b →
    List.Perm (b :: t.set m a) (a :: t)
  | [], m, _, _, h => by simp at h
  | c :: t', 0, a, b, h => by
    simp only [List.getElem?_cons_zero, Option.some_inj] at h
    subst h
    simpa using List.Perm.swap a c t'
  | c :: t', m + 1, a, b, h => by
    simp only [List.getElem?_cons_succ] at h
    exact ((List.Perm.swap c b _).trans ((cons_set_perm t' m a b h).cons c)).trans
      (List.Perm.swap a c t')

theorem swap_perm : ∀ (l : List α) (i j : Nat) (a b : α), l[i]? = some a →
    l[j]? = some b → List.Perm ((l.set i b).set j a) l
  | [], i, _, _, _, hi, _ => by simp at hi
  | x :: t, 0, 0, a, b, hi, hj => by
    simp only [List.getElem?_cons_zero, Option.some_inj] at hi hj
    subst hi hj
    simp
  | x :: t, 0, k + 1, a, b, hi, hj => by
    simp only [List.getElem?_cons_zero, Option.some_inj, List.getElem?_cons_succ] at hi hj
    subst hi
    simpa using cons_set_perm t k x b hj
  | x :: t, m + 1, 0, a, b, hi, hj => by
    simp only [List.getElem?_cons_zero, Option.some_inj, List.getElem?_cons_succ] at hi hj
    subst hj
    simpa using cons_set_perm t m x a hi
  | x :: t, m + 1, k + 1, a, b, hi, hj => by
    simp only [List.getElem?_cons_succ] at hi hj
    simpa using (swap_perm t m k a b hi hj).cons x

/-! ## Basic facts about the heap invariant -/

theorem isHeapB_iff [LinearOrder α] {l : List α} : isHeapB l = true ↔ IsHeap l := by
  unfold isHeapB IsHeap
  rw [List.all_eq_true]
  constructor
  · intro h i p a b hfi ha hb
    have hi : i < l.length := getElem?_some_lt ha
    obtain ⟨hi0, rfl⟩ := father_eq_some_iff.mp hfi
    have := h i (by simpa using hi)
    rw [hfi, ha, hb] at this
    simpa using this
  · intro h i hi
    cases hfi : father i with
    | none => simp [hfi]
    | some p =>
      obtain ⟨hi0, rfl⟩ := father_eq_some_iff.mp hfi
      cases ha : l[i]? with
      | none => simp [hfi, ha]
      | some a =>
        cases hb : l[(i + 1) / 2 - 1]? with
        | none => simp [hfi, ha, hb]
        | some b =>
          simp only [hfi, ha, hb]
          simpa using h i _ a b hfi ha hb

theorem heap_min [LinearOrder α] {l : List α} (hl : IsHeap l) :
    ∀ i : Nat, ∀ a b : α, l[i]? = some a → l[0]? = some b → b ≤ a := by
  intro i
  induction i using Nat.strong_induction_on with
  | _ i ih =>
    intro a b ha hb
    match hfi : father i with
    | none =>
      rw [father_eq_none_iff] at hfi
      subst hfi
      rw [ha, Option.some_inj] at hb
      exact hb.ge
    | some p =>
      have hp : p < i := father_lt hfi
      have hpl : p < l.length := lt_trans hp (getElem?_some_lt ha)
      cases hc : l[p]? with
      | none =>
        rw [List.getElem?_eq_none_iff] at hc
        omega
      | some c => exact le_trans (ih p hp c b hc hb) (hl i p a c hfi ha hc)

theorem getElem?_some_of_lt {l : List α} {i : Nat} (h : i < l.length) :
    ∃ a, l[i]? = some a :=
  ⟨l[i], List.getElem?_eq_getElem h⟩

/-! ## Sift-up: invariant preservation -/

theorem upInv_stop_root [LinearOrder α] {l : List α} {c : Nat} (h : UpInv l c)
    (hc : father c = none) : IsHeap l := by
  intro i p a b hfi ha hb
  rcases eq_or_ne i c with rfl | hne
  · rw [hc] at hfi
    cases hfi
  · exact h.1 i p a b hfi hne ha hb

theorem upInv_stop_ge [LinearOrder α] {l : List α} {c f : Nat} {vc vf : α}
    (h : UpInv l c) (hf : father c = some f) (hvc : l[c]? = some vc)
    (hvf : l[f]? = some vf) (hge : vf ≤ vc) : IsHeap l := by
  intro i p a b hfi ha hb
  rcases eq_or_ne i c with rfl | hne
  · rw [hfi, Option.some_inj] at hf
    subst hf
    rw [ha, Option.some_inj] at hvc
    rw [hb, Option.some_inj] at hvf
    subst hvc
    subst hvf
    exact hge
  · exact h.1 i p a b hfi hne ha hb

theorem upInv_step [LinearOrder α] {l : List α} {c f : Nat} {vc vf : α}
    (h : UpInv l c) (hf : father c = some f) (hvc : l[c]? = some vc)
    (hvf : l[f]? = some vf) (hlt : vc < vf) :
    UpInv ((l.set c vf).set f vc) f := by
  obtain ⟨h1, h2⟩ := h
  have hfc : f < c := father_lt hf
  have hcf : c ≠ f := Nat.ne_of_gt hfc
  have hget := swap_getElem? hvc hvf hcf
  constructor
  · intro i p a b hfi hif ha hb
    rw [hget i] at ha
    rw [hget p] at hb
    rcases eq_or_ne i c with rfl | hic
    · have hpf : p = f := by
        rw [hfi, Option.some_inj] at hf
        exact hf
      subst hpf
      rw [if_neg hcf, if_pos rfl, Option.some_inj] at ha
      rw [if_pos rfl, Option.some_inj] at hb
      subst ha
      subst hb
      exact le_of_lt hlt
    · rw [if_neg hif, if_neg hic] at ha
      rcases eq_or_ne p f with rfl | hpf
      · rw [if_pos rfl, Option.some_inj] at hb
        subst hb
        exact le_of_lt (lt_of_lt_of_le hlt (h1 i p a vf hfi hic ha hvf))
      · rcases eq_or_ne p c with rfl | hpc
        · rw [if_neg hcf, if_pos rfl, Option.some_inj] at hb
          subst hb
          exact h2 f i a vf hf hfi ha hvf
        · rw [if_neg hpf, if_neg hpc] at hb
          exact h1 i p a b hfi hic ha hb
  · intro p j a b hfp hfj ha hb
    have hpf : p ≠ f := Nat.ne_of_lt (father_lt hfp)
    have hpc : p ≠ c := Nat.ne_of_lt (lt_trans (father_lt hfp) hfc)
    have hjf : j ≠ f := Nat.ne_of_gt (father_lt hfj)
    rw [hget j] at ha
    rw [hget p] at hb
    rw [if_neg hpf, if_neg hpc] at hb
    rcases eq_or_ne j c with rfl | hjc
    · rw [if_neg hcf, if_pos rfl, Option.some_inj] at ha
      subst ha
      exact h1 f p vf b hfp (Ne.symm hcf) hvf hb
    · rw [if_neg hjf, if_neg hjc] at ha
      exact le_trans (h1 f p vf b hfp (Ne.symm hcf) hvf hb)
        (h1 j f a vf hfj hjc ha hvf)

/-! ## Sift-up: unfolding equations and the master lemma -/

theorem siftUpLoop_succ_none [LinearOrder α] {fuel : Nat} {l : List α} {c : Nat}
    (hfc : father c = none) : siftUpLoop (fuel + 1) l c = .ok l := by
  simp [siftUpLoop, hfc]

theorem siftUpLoop_succ_some [LinearOrder α] {fuel : Nat} {l : List α} {c f : Nat}
    {vc vf : α} (hfc : father c = some f) (hvc : l[c]? = some vc)
    (hvf : l[f]? = some vf) :
    siftUpLoop (fuel + 1) l c =
      if vf ≤ vc then .ok l else siftUpLoop fuel ((l.set c vf).set f vc) f := by
  simp [siftUpLoop, hfc, hvc, hvf]

theorem siftUpLoop_spec [LinearOrder α] :
    ∀ c : Nat, ∀ l : List α, ∀ fuel : Nat, c < l.length → c < fuel →
    ∃ lr : List α, siftUpLoop fuel l c = .ok lr ∧ lr.length = l.length ∧
      List.Perm lr l ∧ (UpInv l c → IsHeap lr) ∧
      (∀ fuel' : Nat, c < fuel' → siftUpLoop fuel' l c = .ok lr) := by
  intro c
  induction c using Nat.strong_induction_on with
  | _ c ih =>
    intro l fuel hc hfuel
    obtain ⟨fm, rfl⟩ : ∃ fm, fuel = fm + 1 := ⟨fuel - 1, by omega⟩
    cases hfc : father c with
    | none =>
      refine ⟨l, siftUpLoop_succ_none hfc, rfl, List.Perm.refl l,
        fun h => upInv_stop_root h hfc, fun fuel' hf' => ?_⟩
      obtain ⟨fm', rfl⟩ : ∃ fm', fuel' = fm' + 1 := ⟨fuel' - 1, by omega⟩
      exact siftUpLoop_succ_none hfc
    | some f =>
      have hfl : f < c := father_lt hfc
      have hfl' : f < l.length := lt_trans hfl hc
      obtain ⟨vc, hvc⟩ := getElem?_some_of_lt hc
      obtain ⟨vf, hvf⟩ := getElem?_some_of_lt hfl'
      by_cases hge : vf ≤ vc
      · refine ⟨l, ?_, rfl, List.Perm.refl l,
          fun h => upInv_stop_ge h hfc hvc hvf hge, fun fuel' hf' => ?_⟩
        · rw [siftUpLoop_succ_some hfc hvc hvf, if_pos hge]
        · obtain ⟨fm', rfl⟩ : ∃ fm', fuel' = fm' + 1 := ⟨fuel' - 1, by omega⟩
          rw [siftUpLoop_succ_some hfc hvc hvf, if_pos hge]
      · obtain ⟨lr, hrun, hlen, hperm, hheap, hfuelI⟩ :=
          ih f hfl ((l.set c vf).set f vc) fm (by simpa using hfl') (by omega)
        refine ⟨lr, ?_, by simpa using hlen,
          hperm.trans (swap_perm l c f vc vf hvc hvf), fun h => ?_, fun fuel' hf' => ?_⟩
        · rw [siftUpLoop_succ_some hfc hvc hvf, if_neg hge]
          exact hrun
        · exact hheap (upInv_step h hfc hvc hvf (lt_of_not_le hge))
        · obtain ⟨fm', rfl⟩ : ∃ fm', fuel' = fm' + 1 := ⟨fuel' - 1, by omega⟩
          rw [siftUpLoop_succ_some hfc hvc hvf, if_neg hge]
          exact hfuelI fm' (by omega)

/-! ## Specification of `push` -/

theorem upInv_append [LinearOrder α] {l : List α} (hl : IsHeap l) (x : α) :
    UpInv (l ++ [x]) l.length := by
  constructor
  · intro i p a b hfi hne ha hb
    have hil : i < l.length + 1 := by
      have := getElem?_some_lt ha
      simpa using this
    have hi : i < l.length := by omega
    have hp : p < l.length := lt_trans (father_lt hfi) hi
    rw [List.getElem?_append_left hi] at ha
    rw [List.getElem?_append_left hp] at hb
    exact hl i p a b hfi ha hb
  · intro p j a b hfc hfj ha hb
    have hj : l.length < j := child_gt hfj
    have hnone : (l ++ [x])[j]? = none := by
      rw [List.getElem?_eq_none_iff]
      simp only [List.length_append, List.length_cons, List.length_nil]
      omega
    rw [hnone] at ha
    cases ha

theorem push_spec [LinearOrder α] (l : List α) (x : α) :
    ∃ lr, push l x = .ok lr ∧ lr.length = l.length + 1 ∧
      List.Perm lr (l ++ [x]) ∧ (IsHeap l → IsHeap lr) := by
  obtain ⟨lr, hrun, hl, hp, hh, _⟩ :=
    siftUpLoop_spec l.length (l ++ [x]) (l.length + 1) (by simp) (by omega)
  refine ⟨lr, ?_, by simp [hl], hp, fun h => hh (upInv_append h x)⟩
  unfold push
  simpa using hrun

/-! ## Sift-down: invariant preservation -/

theorem downInv_stop_nochild [LinearOrder α] {l : List α} {c : Nat} (h : DownInv l c)
    (hch : ∀ j, father j = some c → l[j]? = none) : IsHeap l := by
  intro i p a b hfi ha hb
  rcases eq_or_ne p c with rfl | hpc
  · rw [hch i hfi] at ha
    cases ha
  · exact h.1 i p a b hfi hpc ha hb

theorem downInv_stop_le [LinearOrder α] {l : List α} {c : Nat} {vc : α} (h : DownInv l c)
    (hvc : l[c]? = some vc)
    (hch : ∀ j vj, father j = some c → l[j]? = some vj → vc ≤ vj) : IsHeap l := by
  intro i p a b hfi ha hb
  rcases eq_or_ne p c with rfl | hpc
  · rw [hvc, Option.some_inj] at hb
    subst hb
    exact hch i a hfi ha
  · exact h.1 i p a b hfi hpc ha hb

theorem downInv_step [LinearOrder α] {l : List α} {c s : Nat} {vc vs : α}
    (h : DownInv l c) (hs : father s = some c) (hvc : l[c]? = some vc)
    (hvs : l[s]? = some vs) (hlt : vs < vc)
    (hmin : ∀ j vj, father j = some c → l[j]? = some vj → vs ≤ vj) :
    DownInv ((l.set c vs).set s vc) s := by
  obtain ⟨h1, h2⟩ := h
  have hcs : c < s := father_lt hs
  have hcs' : c ≠ s := Nat.ne_of_lt hcs
  have hget := swap_getElem? hvc hvs hcs'
  constructor
  · intro i p a b hfi hps ha hb
    rw [hget i] at ha
    rw [hget p] at hb
    rcases eq_or_ne c p with rfl | hpc
    · rw [if_neg hcs', if_pos rfl, Option.some_inj] at hb
      subst hb
      rcases eq_or_ne i s with rfl | his
      · rw [if_pos rfl, Option.some_inj] at ha
        subst ha
        exact le_of_lt hlt
      · have hic : i ≠ c := Nat.ne_of_gt (child_gt hfi)
        rw [if_neg his, if_neg hic] at ha
        exact hmin i a hfi ha
    · rw [if_neg hps, if_neg (Ne.symm hpc)] at hb
      rcases eq_or_ne i c with rfl | hic
      · rw [if_neg hcs', if_pos rfl, Option.some_inj] at ha
        subst ha
        exact h2 p s vs b hfi hs hvs hb
      · rcases eq_or_ne i s with rfl | his
        · rw [hfi, Option.some_inj] at hs
          exact absurd hs.symm hpc
        · rw [if_neg his, if_neg hic] at ha
          exact h1 i p a b hfi (Ne.symm hpc) ha hb
  · intro p j a b hsp hfj ha hb
    rw [hs, Option.some_inj] at hsp
    subst hsp
    rw [hget j] at ha
    rw [hget c] at hb
    rw [if_neg hcs', if_pos rfl, Option.some_inj] at hb
    subst hb
    have hjs : j ≠ s := Nat.ne_of_gt (child_gt hfj)
    have hjc : j ≠ c := Nat.ne_of_gt (lt_trans hcs (child_gt hfj))
    rw [if_neg hjs, if_neg hjc] at ha
    exact h1 j s a vs hfj (Ne.symm hcs') ha hvs

/-! ## Sift-down: unfolding equations and the master lemma -/

theorem siftDownLoop_succ_stop [LinearOrder α] {fuel : Nat} {l : List α} {last c : Nat}
    (h : last < left_son c) : siftDownLoop (fuel + 1) l last c = .ok l := by
  simp [siftDownLoop, h]

theorem siftDownLoop_succ_noright [LinearOrder α] {fuel : Nat} {l : List α}
    {last c : Nat} {vc vl : α} (h1 : ¬ last < left_son c) (h2 : last < right_son c)
    (hvc : l[c]? = some vc) (hvl : l[left_son c]? = some vl) :
    siftDownLoop (fuel + 1) l last c =
      if vc ≤ vl then .ok l
      else siftDownLoop fuel ((l.set c vl).set (left_son c) vc) last (left_son c) := by
  simp [siftDownLoop, h1, h2, hvc, hvl]

theorem siftDownLoop_succ_right [LinearOrder α] {fuel : Nat} {l : List α}
    {last c : Nat} {vc vl vr : α} (h1 : ¬ last < left_son c) (h2 : ¬ last < right_son c)
    (hvr : l[right_son c]? = some vr) (hvl : l[left_son c]? = some vl) (hrl : vr < vl)
    (hvc : l[c]? = some vc) :
    siftDownLoop (fuel + 1) l last c =
      if vc ≤ vr then .ok l
      else siftDownLoop fuel ((l.set c vr).set (right_son c) vc) last (right_son c) := by
  simp [siftDownLoop, h1, h2, hvr, hvl, hrl, hvc]

theorem siftDownLoop_succ_left [LinearOrder α] {fuel : Nat} {l : List α}
    {last c : Nat} {vc vl vr : α} (h1 : ¬ last < left_son c) (h2 : ¬ last < right_son c)
    (hvr : l[right_son c]? = some vr) (hvl : l[left_son c]? = some vl) (hrl : ¬ vr < vl)
    (hvc : l[c]? = some vc) :
    siftDownLoop (fuel + 1) l last c =
      if vc ≤ vl then .ok l
      else siftDownLoop fuel ((l.set c vl).set (left_son c) vc) last (left_son c) := by
  simp [siftDownLoop, h1, h2, hvr, hvl, hrl, hvc]

theorem siftDownLoop_spec [LinearOrder α] (last : Nat) :
    ∀ fuel : Nat, ∀ l : List α, ∀ c : Nat, last + 1 = l.length → c ≤ last →
      last - c < fuel →
    ∃ lr, siftDownLoop fuel l last c = .ok lr ∧ lr.length = l.length ∧
      List.Perm lr l ∧ (DownInv l c → IsHeap lr) ∧
      (∀ fuel' : Nat, last - c < fuel' → siftDownLoop fuel' l last c = .ok lr) := by
  intro fuel
  induction fuel with
  | zero =>
    intro l c _ _ hf
    omega
  | succ fm ih =>
    intro l c hlen hcl hfuel
    by_cases hstop : last < left_son c
    · have hch : ∀ j, father j = some c → l[j]? = none := by
        intro j hj
        rw [List.getElem?_eq_none_iff]
        rcases child_cases hj with rfl | rfl
        · unfold left_son at hstop ⊢
          omega
        · unfold left_son at hstop
          unfold right_son
          omega
      refine ⟨l, siftDownLoop_succ_stop hstop, rfl, List.Perm.refl l,
        fun h => downInv_stop_nochild h hch, fun fuel' hf' => ?_⟩
      obtain ⟨fm', rfl⟩ : ∃ fm', fuel' = fm' + 1 := ⟨fuel' - 1, by omega⟩
      exact siftDownLoop_succ_stop hstop
    · have hlsl : left_son c < l.length := by omega
      have hcll : c < l.length := by
        unfold left_son at hstop
        omega
      obtain ⟨vl, hvl⟩ := getElem?_some_of_lt hlsl
      obtain ⟨vc, hvc⟩ := getElem?_some_of_lt hcll
      by_cases hr : last < right_son c
      · -- the right child is outside the active region
        have hrnone : ∀ j vj, father j = some c → l[j]? = some vj → vj = vl := by
          intro j vj hj hvj
          rcases child_cases hj with rfl | rfl
          · rw [hvl, Option.some_inj] at hvj
            exact hvj.symm
          · exfalso
            have := getElem?_some_lt hvj
            omega
        by_cases hle : vc ≤ vl
        · refine ⟨l, ?_, rfl, List.Perm.refl l, fun h => downInv_stop_le h hvc ?_,
            fun fuel' hf' => ?_⟩
          · rw [siftDownLoop_succ_noright hstop hr hvc hvl, if_pos hle]
          · intro j vj hj hvj
            rw [hrnone j vj hj hvj]
            exact hle
          · obtain ⟨fm', rfl⟩ : ∃ fm', fuel' = fm' + 1 := ⟨fuel' - 1, by omega⟩
            rw [siftDownLoop_succ_noright hstop hr hvc hvl, if_pos hle]
        · have hmin : ∀ j vj, father j = some c → l[j]? = some vj → vl ≤ vj := by
            intro j vj hj hvj
            rw [hrnone j vj hj hvj]
          obtain ⟨lr, hrun, hlen', hperm, hheap, hfI⟩ :=
            ih ((l.set c vl).set (left_son c) vc) (left_son c) (by simpa using hlen)
              (by omega)
              (by unfold left_son at hstop ⊢; omega)
          refine ⟨lr, ?_, by simpa using hlen',
            hperm.trans (swap_perm l c (left_son c) vc vl hvc hvl), fun h => ?_,
            fun fuel' hf' => ?_⟩
          · rw [siftDownLoop_succ_noright hstop hr hvc hvl, if_neg hle]
            exact hrun
          · exact hheap
              (downInv_step h (father_left_son c) hvc hvl (lt_of_not_le hle) hmin)
          · obtain ⟨fm', rfl⟩ : ∃ fm', fuel' = fm' + 1 := ⟨fuel' - 1, by omega⟩
            rw [siftDownLoop_succ_noright hstop hr hvc hvl, if_neg hle]
            exact hfI fm' (by unfold left_son at hstop ⊢; omega)
      · have hrsl : right_son c < l.length := by omega
        obtain ⟨vr, hvr⟩ := getElem?_some_of_lt hrsl
        have hchval : ∀ j vj, father j = some c → l[j]? = some vj →
            vl = vj ∨ vr = vj := by
          intro j vj hj hvj
          rcases child_cases hj with rfl | rfl
          · rw [hvl, Option.some_inj] at hvj
            exact Or.inl hvj
          · rw [hvr, Option.some_inj] at hvj
            exact Or.inr hvj
        by_cases hrl : vr < vl
        · by_cases hle : vc ≤ vr
          · refine ⟨l, ?_, rfl, List.Perm.refl l, fun h => downInv_stop_le h hvc ?_,
              fun fuel' hf' => ?_⟩
            · rw [siftDownLoop_succ_right hstop hr hvr hvl hrl hvc, if_pos hle]
            · intro j vj hj hvj
              rcases hchval j vj hj hvj with rfl | rfl
              · exact le_trans hle (le_of_lt hrl)
              · exact hle
            · obtain ⟨fm', rfl⟩ : ∃ fm', fuel' = fm' + 1 := ⟨fuel' - 1, by omega⟩
              rw [siftDownLoop_succ_right hstop hr hvr hvl hrl hvc, if_pos hle]
          · have hmin : ∀ j vj, father j = some c → l[j]? = some vj → vr ≤ vj := by
              intro j vj hj hvj
              rcases hchval j vj hj hvj with rfl | rfl
              · exact le_of_lt hrl
              · exact le_refl vr
            obtain ⟨lr, hrun, hlen', hperm, hheap, hfI⟩ :=
              ih ((l.set c vr).set (right_son c) vc) (right_son c) (by simpa using hlen)
                (by omega)
                (by unfold right_son at hr ⊢; omega)
            refine ⟨lr, ?_, by simpa using hlen',
              hperm.trans (swap_perm l c (right_son c) vc vr hvc hvr), fun h => ?_,
              fun fuel' hf' => ?_⟩
            · rw [siftDownLoop_succ_right hstop hr hvr hvl hrl hvc, if_neg hle]
              exact hrun
            · exact hheap
                (downInv_step h (father_right_son c) hvc hvr (lt_of_not_le hle) hmin)
            · obtain ⟨fm', rfl⟩ : ∃ fm', fuel' = fm' + 1 := ⟨fuel' - 1, by omega⟩
              rw [siftDownLoop_succ_right hstop hr hvr hvl hrl hvc, if_neg hle]
              exact hfI fm' (by unfold right_son at hr ⊢; omega)
        · by_cases hle : vc ≤ vl
          · refine ⟨l, ?_, rfl, List.Perm.refl l, fun h => downInv_stop_le h hvc ?_,
              fun fuel' hf' => ?_⟩
            · rw [siftDownLoop_succ_left hstop hr hvr hvl hrl hvc, if_pos hle]
            · intro j vj hj hvj
              rcases hchval j vj hj hvj with rfl | rfl
              · exact hle
              · exact le_trans hle (le_of_not_lt hrl)
            · obtain ⟨fm', rfl⟩ : ∃ fm', fuel' = fm' + 1 := ⟨fuel' - 1, by omega⟩
              rw [siftDownLoop_succ_left hstop hr hvr hvl hrl hvc, if_pos hle]
          · have hmin : ∀ j vj, father j = some c → l[j]? = some vj → vl ≤ vj := by
              intro j vj hj hvj
              rcases hchval j vj hj hvj with rfl | rfl
              · exact le_refl vl
              · exact le_of_not_lt hrl
            obtain ⟨lr, hrun, hlen', hperm, hheap, hfI⟩ :=
              ih ((l.set c vl).set (left_son c) vc) (left_son c) (by simpa using hlen)
                (by omega)
                (by unfold left_son at hstop ⊢; omega)
            refine ⟨lr, ?_, by simpa using hlen',
              hperm.trans (swap_perm l c (left_son c) vc vl hvc hvl), fun h => ?_,
              fun fuel' hf' => ?_⟩
            · rw [siftDownLoop_succ_left hstop hr hvr hvl hrl hvc, if_neg hle]
              exact hrun
            · exact hheap
                (downInv_step h (father_left_son c) hvc hvl (lt_of_not_le hle) hmin)
            · obtain ⟨fm', rfl⟩ : ∃ fm', fuel' = fm' + 1 := ⟨fuel' - 1, by omega⟩
              rw [siftDownLoop_succ_left hstop hr hvr hvl hrl hvc, if_neg hle]
              exact hfI fm' (by unfold left_son at hstop ⊢; omega)

/-! ## Specification of `pop` -/

theorem isHeap_nil [LinearOrder α] : IsHeap ([] : List α) := by
  intro i p a b _ ha _
  simp at ha

theorem pop_nil [LinearOrder α] : pop ([] : List α) = .ok (none, []) := rfl

theorem pop_singleton [LinearOrder α] (x : α) : pop [x] = .ok (some x, []) := rfl

theorem pop_spec [LinearOrder α] (l : List α) :
    (l = [] ∧ pop l = .ok (none, l)) ∨
    ∃ m lr, pop l = .ok (some m, lr) ∧ l[0]? = some m ∧ lr.length + 1 = l.length ∧
      List.Perm (m :: lr) l ∧ (IsHeap l → IsHeap lr) := by
  by_cases h0 : l = []
  · subst h0
    exact Or.inl ⟨rfl, rfl⟩
  right
  by_cases h1 : l.length = 1
  · obtain ⟨x, rfl⟩ := List.length_eq_one.mp h1
    exact ⟨x, [], pop_singleton x, rfl, rfl, List.Perm.refl [x], fun _ => isHeap_nil⟩
  have hlen2 : 2 ≤ l.length := by
    have hne : l.length ≠ 0 := fun h => h0 (List.length_eq_zero.mp h)
    omega
  obtain ⟨v0, hv0⟩ := getElem?_some_of_lt (show 0 < l.length by omega)
  obtain ⟨vl, hvl⟩ := getElem?_some_of_lt (show l.length - 1 < l.length by omega)
  have h0ne : (0 : Nat) ≠ l.length - 1 := by omega
  have hswap := swap_getElem? hv0 hvl h0ne
  have hswlen : ((l.set 0 vl).set (l.length - 1) v0).length = l.length := by simp
  have hswne : (l.set 0 vl).set (l.length - 1) v0 ≠ [] := by
    intro h
    have h2 := congrArg List.length h
    rw [hswlen] at h2
    simp only [List.length_nil] at h2
    omega
  have hgetlast : ((l.set 0 vl).set (l.length - 1) v0).getLast? = some v0 := by
    rw [List.getLast?_eq_getElem?, hswlen, hswap (l.length - 1), if_pos rfl]
  have hshrunklen : ((l.set 0 vl).set (l.length - 1) v0).dropLast.length =
      l.length - 1 := by
    simp
  have hshrunk_get : ∀ k : Nat, ((l.set 0 vl).set (l.length - 1) v0).dropLast[k]? =
      if k < l.length - 1 then
        (if k = l.length - 1 then some v0 else if k = 0 then some vl else l[k]?)
      else none := by
    intro k
    rw [List.getElem?_dropLast, hswap k, hswlen]
  have hsw_eq : ((l.set 0 vl).set (l.length - 1) v0).dropLast ++ [v0] =
      (l.set 0 vl).set (l.length - 1) v0 := by
    have hg : ((l.set 0 vl).set (l.length - 1) v0).getLast hswne = v0 := by
      have := List.getLast?_eq_getLast ((l.set 0 vl).set (l.length - 1) v0) hswne
      rw [hgetlast, Option.some_inj] at this
      exact this.symm
    conv_rhs => rw [← List.dropLast_concat_getLast hswne]
    rw [hg]
  have hdown : IsHeap l → DownInv ((l.set 0 vl).set (l.length - 1) v0).dropLast 0 := by
    intro hl
    constructor
    · intro i p a b hfi hp0 ha hb
      rw [hshrunk_get i] at ha
      rw [hshrunk_get p] at hb
      have hpi : p < i := father_lt hfi
      have hp1 : 1 ≤ p := by
        rcases Nat.eq_zero_or_pos p with rfl | h
        · exact absurd rfl hp0
        · omega
      by_cases hi : i < l.length - 1
      · rw [if_pos hi, if_neg (by omega), if_neg (by omega)] at ha
        rw [if_pos (by omega), if_neg (by omega), if_neg (by omega)] at hb
        exact hl i p a b hfi ha hb
      · rw [if_neg hi] at ha
        cases ha
    · intro p j a b hsp _ _ _
      rw [father_eq_some_iff] at hsp
      exact absurd rfl hsp.1
  obtain ⟨lr, hrun, hlen', hperm, hheap, _⟩ :=
    siftDownLoop_spec (l.length - 1 - 1)
      (((l.set 0 vl).set (l.length - 1) v0).dropLast.length + 1)
      ((l.set 0 vl).set (l.length - 1) v0).dropLast 0
      (by rw [hshrunklen]; omega) (by omega) (by rw [hshrunklen]; omega)
  refine ⟨v0, lr, ?_, hv0, ?_, ?_, fun hl => hheap (hdown hl)⟩
  · simp only [pop]
    rw [if_neg (by simp [h0]), if_neg h1, hv0, hvl]
    simp only [hrun, hgetlast]
  · rw [hlen', hshrunklen]
    omega
  · have h1p : List.Perm (v0 :: lr)
        (v0 :: ((l.set 0 vl).set (l.length - 1) v0).dropLast) := hperm.cons v0
    have h2p : List.Perm (v0 :: ((l.set 0 vl).set (l.length - 1) v0).dropLast)
        (((l.set 0 vl).set (l.length - 1) v0).dropLast ++ [v0]) :=
      (List.perm_append_singleton v0 _).symm
    have h3p : List.Perm (((l.set 0 vl).set (l.length - 1) v0).dropLast ++ [v0]) l := by
      rw [hsw_eq]
      exact swap_perm l 0 (l.length - 1) v0 vl hv0 hvl
    exact (h1p.trans h2p).trans h3p

/-! ## Total versions coincide with the loops -/

theorem push_eq_ok [LinearOrder α] (l : List α) (x : α) :
    push l x = .ok (pushT l x) := by
  obtain ⟨lr, h, _⟩ := push_spec l x
  rw [pushT, h]
  rfl

theorem pop_eq_ok [LinearOrder α] (l : List α) : pop l = .ok (popT l) := by
  rcases pop_spec l with ⟨_, h⟩ | ⟨m, lr, h, _⟩ <;>
    rw [popT, h] <;> rfl

theorem pushT_spec [LinearOrder α] (l : List α) (x : α) :
    (pushT l x).length = l.length + 1 ∧ List.Perm (pushT l x) (l ++ [x]) ∧
      (IsHeap l → IsHeap (pushT l x)) := by
  obtain ⟨lr, h, hlen, hperm, hheap⟩ := push_spec l x
  have he : pushT l x = lr := by rw [pushT, h]; rfl
  rw [he]
  exact ⟨hlen, hperm, hheap⟩

theorem popT_nil [LinearOrder α] : popT ([] : List α) = (none, []) := rfl

theorem popT_spec [LinearOrder α] (l : List α) (hne : l ≠ []) :
    ∃ m lr, popT l = (some m, lr) ∧ l[0]? = some m ∧ lr.length + 1 = l.length ∧
      List.Perm (m :: lr) l ∧ (IsHeap l → IsHeap lr) := by
  rcases pop_spec l with ⟨h, _⟩ | ⟨m, lr, h, h2, h3, h4, h5⟩
  · exact absurd h hne
  · have he : popT l = (some m, lr) := by rw [popT, h]; rfl
    exact ⟨m, lr, he, h2, h3, h4, h5⟩

/-! ## Draining the heap yields a sorted permutation -/

theorem popList_spec [LinearOrder α] :
    ∀ fuel : Nat, ∀ l : List α, IsHeap l → l.length ≤ fuel →
      List.Perm (popList fuel l) l ∧ List.Sorted (· ≤ ·) (popList fuel l) := by
  intro fuel
  induction fuel with
  | zero =>
    intro l _ hl
    have h0 : l = [] := List.length_eq_zero.mp (Nat.le_zero.mp hl)
    subst h0
    exact ⟨List.Perm.refl _, List.sorted_nil⟩
  | succ fm ih =>
    intro l hheap hlen
    by_cases h0 : l = []
    · subst h0
      have hrun : popList (fm + 1) ([] : List α) = [] := by
        simp [popList, popT_nil]
      rw [hrun]
      exact ⟨List.Perm.refl _, List.sorted_nil⟩
    · obtain ⟨m, lr, hpt, hm0, hlr, hperm, hh⟩ := popT_spec l h0
      have hlr_len : lr.length ≤ fm := by omega
      obtain ⟨ihp, ihs⟩ := ih lr (hh hheap) hlr_len
      have hrun : popList (fm + 1) l = m :: popList fm lr := by
        simp [popList, hpt]
      rw [hrun]
      constructor
      · exact (ihp.cons m).trans hperm
      · rw [List.sorted_cons]
        refine ⟨?_, ihs⟩
        intro b hb
        have hb_lr : b ∈ lr := ihp.mem_iff.mp hb
        have hb_l : b ∈ l := hperm.mem_iff.mp (List.mem_cons_of_mem m hb_lr)
        obtain ⟨i, hi⟩ := List.mem_iff_getElem?.mp hb_l
        exact heap_min hheap i b m hi hm0

theorem foldl_pushT_spec [LinearOrder α] :
    ∀ xs acc : List α, IsHeap acc →
      IsHeap (xs.foldl pushT acc) ∧ List.Perm (xs.foldl pushT acc) (acc ++ xs) := by
  intro xs
  induction xs with
  | nil =>
    intro acc h
    exact ⟨h, by simp⟩
  | cons x xs ih =>
    intro acc h
    obtain ⟨hlen, hperm, hheap⟩ := pushT_spec acc x
    obtain ⟨ih1, ih2⟩ := ih (pushT acc x) (hheap h)
    rw [List.foldl_cons]
    refine ⟨ih1, ih2.trans ?_⟩
    refine (hperm.append_right xs).trans ?_
    rw [List.append_assoc]
    simp

theorem pushAll_spec [LinearOrder α] (xs : List α) :
    IsHeap (pushAll xs) ∧ List.Perm (pushAll xs) xs := by
  obtain ⟨h1, h2⟩ := foldl_pushT_spec xs [] isHeap_nil
  rw [pushAll]
  exact ⟨h1, by simpa using h2⟩

/-! ## Size bookkeeping over an operation sequence -/

theorem foldl_stepOp_len [LinearOrder α] :
    ∀ (ops : List (Op α)) (acc : List α × Nat),
      (ops.foldl stepOp acc).1.length + (ops.foldl stepOp acc).2 =
        acc.1.length + acc.2 + countPush ops := by
  intro ops
  induction ops with
  | nil =>
    intro acc
    simp [countPush]
  | cons op ops ih =>
    intro acc
    rw [List.foldl_cons, ih]
    cases op with
    | push x =>
      have hc : countPush (Op.push x :: ops) = countPush ops + 1 := by
        simp [countPush, List.filter_cons]
      have h1 := (pushT_spec acc.1 x).1
      simp only [stepOp]
      rw [hc, h1]
      omega
    | pop =>
      have hc : countPush (Op.pop :: ops) = countPush ops := by
        simp [countPush, List.filter_cons]
      rw [hc]
      by_cases h0 : acc.1 = []
      · simp [stepOp, h0, popT_nil]
      · obtain ⟨m, lr, hpt, _, hlen, _, _⟩ := popT_spec acc.1 h0
        simp only [stepOp, hpt]
        omega

/-! ## The claims -/

/-- Claim C1: for every sequence of values, pushing them all into a freshly
constructed heap and then popping until exhaustion yields the pushed
multiset (a permutation of the input) in non-decreasing order. -/
theorem claim1_sorted_extraction [LinearOrder α] (xs : List α) :
    List.Perm (popAll (pushAll xs)) xs ∧
      List.Sorted (· ≤ ·) (popAll (pushAll xs)) := by
  obtain ⟨hheap, hperm⟩ := pushAll_spec xs
  obtain ⟨h1, h2⟩ := popList_spec (pushAll xs).length (pushAll xs) hheap (le_refl _)
  rw [popAll]
  exact ⟨h1.trans hperm, h2⟩

/-- Claim C2: the heap-order invariant (father index holds a value at most
its child's) is true of the empty heap produced by new() and is preserved
by every completed push and every completed pop. -/
theorem claim2_invariant_preservation [LinearOrder α] :
    IsHeap (new : List α) ∧
    (∀ (l lr : List α) (x : α), IsHeap l → push l x = .ok lr → IsHeap lr) ∧
    (∀ (l : List α) (r : Option α × List α), IsHeap l → pop l = .ok r →
      IsHeap r.2) := by
  refine ⟨isHeap_nil, ?_, ?_⟩
  · intro l lr x hl hok
    obtain ⟨lr2, h, _, _, hh⟩ := push_spec l x
    rw [h] at hok
    injection hok with he
    subst he
    exact hh hl
  · intro l r hl hok
    rcases pop_spec l with ⟨rfl, h⟩ | ⟨m, lr, h, _, _, _, hh⟩
    · rw [h] at hok
      injection hok with he
      subst he
      exact isHeap_nil
    · rw [h] at hok
      injection hok with he
      subst he
      exact hh hl

/-- Witness for C2, instantiated at a push on the heap `[3, 5]`. -/
theorem claim2_witness : IsHeap ([1, 5, 3] : List Int) :=
  claim2_invariant_preservation.2.1 [3, 5] [1, 5, 3] 1
    (isHeapB_iff.mp (by decide)) (by decide)

/-- Claim C3: top() is exactly the element at index 0 of the backing
vector, absent precisely on the empty heap, and under the heap invariant
it is a minimum of all stored elements; it is a pure read. -/
theorem claim3_top [LinearOrder α] (l : List α) :
    top l = l[0]? ∧ (top l = none ↔ l = []) ∧
    (IsHeap l → l ≠ [] → ∃ m, top l = some m ∧ ∀ x ∈ l, m ≤ x) := by
  refine ⟨rfl, ?_, ?_⟩
  · rw [top, List.getElem?_eq_none_iff]
    constructor
    · intro h
      exact List.length_eq_zero.mp (Nat.le_zero.mp h)
    · intro h
      subst h
      simp
  · intro hheap hne
    have hpos : 0 < l.length := by
      cases l with
      | nil => exact absurd rfl hne
      | cons y ys => simp
    obtain ⟨m, hm⟩ := getElem?_some_of_lt hpos
    refine ⟨m, hm, ?_⟩
    intro x hx
    obtain ⟨i, hi⟩ := List.mem_iff_getElem?.mp hx
    exact heap_min hheap i x m hi hm

/-- Witness for C3 on the heap `[2, 7, 4]`. -/
theorem claim3_witness :
    ∃ m, top ([2, 7, 4] : List Int) = some m ∧
      ∀ x ∈ ([2, 7, 4] : List Int), m ≤ x :=
  (claim3_top [2, 7, 4]).2.2 (isHeapB_iff.mp (by decide)) (by decide)

/-- Claim C4: pop() on the empty heap returns None and leaves the state;
on a non-empty heap it completes with Some of a minimum element, and the
remaining vector is the old multiset with one occurrence of that minimum
removed. -/
theorem claim4_pop [LinearOrder α] (l : List α) :
    (l = [] → pop l = .ok (none, l)) ∧
    (IsHeap l → l ≠ [] → ∃ m lr, pop l = .ok (some m, lr) ∧
      (∀ x ∈ l, m ≤ x) ∧ List.Perm (m :: lr) l) := by
  constructor
  · intro h
    subst h
    exact pop_nil
  · intro hheap hne
    rcases pop_spec l with ⟨rfl, _⟩ | ⟨m, lr, h, hm0, _, hperm, _⟩
    · exact absurd rfl hne
    · refine ⟨m, lr, h, ?_, hperm⟩
      intro x hx
      obtain ⟨i, hi⟩ := List.mem_iff_getElem?.mp hx
      exact heap_min hheap i x m hi hm0

/-- Witness for C4 on the heap `[1, 2]`. -/
theorem claim4_witness :
    ∃ m lr, pop ([1, 2] : List Int) = .ok (some m, lr) ∧
      (∀ x ∈ ([1, 2] : List Int), m ≤ x) ∧ List.Perm (m :: lr) [1, 2] :=
  (claim4_pop [1, 2]).2 (isHeapB_iff.mp (by decide)) (by decide)

/-- Claim C5: pop() and top() on the empty heap signal absence and leave
the (empty) state unchanged, so repeated calls keep returning absent. -/
theorem claim5_empty_idempotent [LinearOrder α] :
    pop ([] : List α) = .ok (none, []) ∧ top ([] : List α) = none :=
  ⟨rfl, rfl⟩

/-- Claim C6: over any operation sequence from new(), the final length plus
the number of successful pops equals the number of pushes; per operation,
push grows the length by one, a successful pop shrinks it by one, and a
pop returning None can only happen on the empty heap, which it leaves
unchanged. -/
theorem claim6_size_consistency [LinearOrder α] :
    (∀ ops : List (Op α), len (runOps ops).1 + (runOps ops).2 = countPush ops) ∧
    (∀ (l lr : List α) (x : α), push l x = .ok lr → len lr = len l + 1) ∧
    (∀ (l lr : List α) (m : α), pop l = .ok (some m, lr) →
      len lr + 1 = len l) ∧
    (∀ l lr : List α, pop l = .ok (none, lr) → lr = l ∧ l = []) := by
  refine ⟨?_, ?_, ?_, ?_⟩
  · intro ops
    have h := foldl_stepOp_len ops (new, 0)
    simpa [runOps, len, new] using h
  · intro l lr x hok
    obtain ⟨lr2, h, hlen, _, _⟩ := push_spec l x
    rw [h] at hok
    injection hok with he
    subst he
    exact hlen
  · intro l lr m hok
    rcases pop_spec l with ⟨rfl, h⟩ | ⟨m2, lr2, h, _, hlen, _, _⟩
    · rw [h] at hok
      injection hok with he
      injection he with he1 he2
      cases he1
    · rw [h] at hok
      injection hok with he
      injection he with he1 he2
      injection he1 with he1'
      subst he1'
      subst he2
      exact hlen
  · intro l lr hok
    rcases pop_spec l with ⟨rfl, h⟩ | ⟨m2, lr2, h, _, _, _, _⟩
    · rw [h] at hok
      injection hok with he
      injection he with he1 he2
      exact ⟨he2.symm, rfl⟩
    · rw [h] at hok
      injection hok with he
      injection he with he1 he2
      cases he1

/-- Witness for C6: a push on `[7]` grows the length by one. -/
theorem claim6_witness : len ([4, 7] : List Int) = len ([7] : List Int) + 1 :=
  claim6_size_consistency.2.1 [7] [4, 7] 4 (by decide)

/-- Claim C7: the implicit-tree index arithmetic: left child 2i+1, right
child 2i+2, the parent absent exactly at index 0, and otherwise equal to
floor((i+1)/2) - 1. -/
theorem claim7_index_arithmetic (i : Nat) :
    left_son i = 2 * i + 1 ∧ right_son i = 2 * i + 2 ∧
    (father i = none ↔ i = 0) ∧ (0 < i → father i = some ((i + 1) / 2 - 1)) := by
  refine ⟨rfl, rfl, father_eq_none_iff, ?_⟩
  intro h
  rw [father_eq_some_iff]
  omega

/-- Witness for C7 at index 5. -/
theorem claim7_witness : father 5 = some ((5 + 1) / 2 - 1) :=
  (claim7_index_arithmetic 5).2.2.2 (by decide)

/-- Claim C8: is_empty() is true exactly when len() is zero. -/
theorem claim8_is_empty_iff (l : List α) : is_empty l = true ↔ len l = 0 := by
  rw [is_empty, len]
  simp

/-- Claim C9: no call to push or pop can reach the out-of-bounds indexing
outcome: every index read by the sift-up and sift-down loops lies inside
the backing vector. -/
theorem claim9_no_out_of_bounds [LinearOrder α] :
    (∀ (l : List α) (x : α), push l x ≠ .oob) ∧
    (∀ l : List α, pop l ≠ .oob) := by
  constructor
  · intro l x h
    rw [push_eq_ok] at h
    cases h
  · intro l h
    rw [pop_eq_ok] at h
    cases h

/-- Witness for C9: a concrete push cannot panic. -/
theorem claim9_witness : push ([1] : List Int) 0 ≠ .oob :=
  claim9_no_out_of_bounds.1 [1] 0

/-- Claim C10: both internal loops terminate on every input: the sift-up
index strictly decreases (father is strictly below its argument), the
sift-down index stays bounded by `last` while strictly increasing, and
push, pop and both loops (under any sufficient fuel) always complete
normally. -/
theorem claim10_termination [LinearOrder α] :
    (∀ i f : Nat, father i = some f → f < i) ∧
    (∀ (l : List α) (x : α), ∃ lr, push l x = .ok lr) ∧
    (∀ l : List α, ∃ r, pop l = .ok r) ∧
    (∀ (fuel c : Nat) (l : List α), c < l.length → c < fuel →
      ∃ lr, siftUpLoop fuel l c = .ok lr) ∧
    (∀ (fuel last c : Nat) (l : List α), last + 1 = l.length → c ≤ last →
      last - c < fuel → ∃ lr, siftDownLoop fuel l last c = .ok lr) := by
  refine ⟨fun i f h => father_lt h, fun l x => ⟨pushT l x, push_eq_ok l x⟩,
    fun l => ⟨popT l, pop_eq_ok l⟩, ?_, ?_⟩
  · intro fuel c l hc hf
    obtain ⟨lr, h, _⟩ := siftUpLoop_spec c l fuel hc hf
    exact ⟨lr, h⟩
  · intro fuel last c l h1 h2 h3
    obtain ⟨lr, h, _⟩ := siftDownLoop_spec last fuel l c h1 h2 h3
    exact ⟨lr, h⟩

/-- Witness for C10: the sift-up loop completes on a concrete input. -/
theorem claim10_witness : ∃ lr, siftUpLoop 2 ([5, 1] : List Int) 1 = .ok lr :=
  claim10_termination.2.2.2.1 2 1 [5, 1] (by decide) (by decide)

end RustBinaryHeap
